import Mathlib

/-!
# Dmaheap: the dma-heap allocation helper of the Raspberry Pi pipeline

A shallow embedding of `class Dmaheap` from
`src/libcamera/pipeline/raspberrypi/dma-heaps.h`.

* C++ `unsigned int` values are naturals reduced modulo `2^32`, C++ `int`
  values are integers in `[-2^31, 2^31)`, `size_t` is 64 bits wide (LP64).
* `std::map<void *, AllocInfo>` is a key-ordered association list; an
  iterator is a position in it and `end()` is its length.
* The kernel is not part of the class.  Its replies (the descriptor created
  by `DMA_HEAP_IOCTL_ALLOC`, the address chosen by `mmap`, the results of
  `open`) are inputs of the operations, and the state carries the part of the
  process the class acts on: the open descriptors, the live mappings and the
  sequence of system calls issued so far.
-/

namespace RPi

/-! ## Machine integers -/

/-- Addition of two `unsigned int` values. -/
def add32 (a b : Nat) : Nat := (a + b) % 2 ^ 32

/-- Subtraction of two `unsigned int` values (wraps below zero). -/
def sub32 (a b : Nat) : Nat := (a % 2 ^ 32 + 2 ^ 32 - b % 2 ^ 32) % 2 ^ 32

/-- Bitwise complement `~a` of an `unsigned int`. -/
def not32 (a : Nat) : Nat := 2 ^ 32 - 1 - a % 2 ^ 32

/-- Bitwise conjunction `a & b` of two `unsigned int` values. -/
def and32 (a b : Nat) : Nat := (a % 2 ^ 32) &&& (b % 2 ^ 32)

/-- Conversion of an `unsigned int` to `int` (two's complement). -/
def toInt (n : Nat) : Int :=
  if n % 2 ^ 32 < 2 ^ 31 then ((n % 2 ^ 32 : Nat) : Int)
  else ((n % 2 ^ 32 : Nat) : Int) - 2 ^ 32

/-- Conversion of an `int` to `unsigned int`. -/
def toUInt (i : Int) : Nat := (i % 2 ^ 32).toNat

/-- Conversion of an `int` to `size_t` (64 bits). -/
def toSizeT (i : Int) : Nat := (i % 2 ^ 64).toNat

/-- The page-aligned size computed at the top of `alloc`:
`(size + pageSize - 1) & ~(pageSize - 1)` on `unsigned int`. -/
def alignedSize (size pageSize : Nat) : Nat :=
  and32 (sub32 (add32 size pageSize) 1) (not32 (sub32 pageSize 1))

/-! ## The tracker table -/

/-- The record `struct AllocInfo`. -/
structure AllocInfo where
  handle : Int
  size : Int
  deriving DecidableEq

/-- The table `std::map<void *, AllocInfo>`, entries in key order. -/
abbrev AllocMap := List (Nat × AllocInfo)

/-- The iterator returned by `std::map::find`: the position of the entry with
the given key, or the length of the table for `end()`. -/
def AllocMap.find : AllocMap → Nat → Nat
  | [], _ => 0
  | (q, _) :: rest, p => if q = p then 0 else AllocMap.find rest p + 1

/-- The table after `std::map::emplace`: a key already present keeps its
record, a new key is inserted at its place in key order. -/
def AllocMap.emplace : AllocMap → Nat → AllocInfo → AllocMap
  | [], p, v => [(p, v)]
  | (q, w) :: rest, p, v =>
    if p < q then (p, v) :: (q, w) :: rest
    else if p = q then (q, w) :: rest
    else (q, w) :: AllocMap.emplace rest p v

/-- The invariant of `std::map`: keys strictly increasing. -/
def AllocMap.Ordered (m : AllocMap) : Prop :=
  m.Pairwise (fun a b => a.1 < b.1)

instance (m : AllocMap) : Decidable m.Ordered := by
  unfold AllocMap.Ordered; infer_instance

/-! ## The process as seen by the class -/

/-- A live memory mapping: start address, length in bytes, and the descriptor
it was created from. -/
structure Mapping where
  addr : Nat
  len : Nat
  fd : Int
  deriving DecidableEq

/-- The system calls the class issues. -/
inductive Syscall where
  | sysOpen (path : String)
  | ioctlAlloc (heapFd : Int) (len : Nat)
  | ioctlSetName (fd : Int) (name : String)
  | mmap (len : Nat) (fd : Int)
  | munmap (addr : Nat) (len : Nat)
  | close (fd : Int)
  deriving DecidableEq

/-- The members of a `Dmaheap` object together with the process state its
system calls act on. -/
structure State where
  allocMap_ : AllocMap
  dmaheapHandle_ : Int
  pageSize : Nat
  fds : List Int
  maps : List Mapping
  trace : List Syscall
  deriving DecidableEq

/-- The upper end of the user address space (the x86-64 value; every LP64
Linux has a limit below `2^63`). -/
def TASK_SIZE : Nat := 2 ^ 47

/-- Appends one system call to the trace. -/
def State.issue (s : State) (c : Syscall) : State :=
  { s with trace := s.trace ++ [c] }

/-- The call `::close(fd)`: the descriptor, when open, is removed from the
descriptor table. -/
def sysClose (s : State) (fd : Int) : State :=
  { s.issue (.close fd) with fds := s.fds.erase fd }

/-- What is left of a mapping when the bytes `[a, a + l)` are unmapped. -/
def Mapping.cut (a l : Nat) (m : Mapping) : List Mapping :=
  (if m.addr < a then [{ m with len := min m.len (a - m.addr) }] else []) ++
  (if a + l < m.addr + m.len then
    [{ m with addr := max m.addr (a + l), len := m.addr + m.len - max m.addr (a + l) }]
   else [])

/-- The call `::munmap(addr, len)`: rejected (`EINVAL`) when the length is
zero or the range leaves the user address space; otherwise every byte of
`[addr, addr + len)` is unmapped.  (The addresses the class passes come from
`mmap` and are page aligned.) -/
def sysMunmap (s : State) (addr len : Nat) : State :=
  let s1 := s.issue (.munmap addr len)
  if len = 0 ∨ TASK_SIZE < addr ∨ TASK_SIZE - addr < len then s1
  else { s1 with maps := s1.maps.flatMap (Mapping.cut addr len) }

/-- The replies of the kernel to one `alloc` call: the descriptor written to
`alloc.fd` by `DMA_HEAP_IOCTL_ALLOC` (`none` when the ioctl returns a negative
value) and the address returned by `mmap` (`none` for `MAP_FAILED`). -/
structure KernelReply where
  allocFd : Option Nat
  mmapAddr : Option Nat

/-! ## The member functions -/

def DMA_HEAP_CMA_NAME : String := "/dev/dma_heap/linux,cma"
def DMA_HEAP_CMA_ALT_NAME : String := "/dev/dma_heap/reserved"

/-- The call `::open(path, O_RDWR, 0)` with the kernel's result `r`: `-1` on
failure, otherwise the new descriptor, which is then open. -/
def sysOpen (s : State) (path : String) (r : Int) : State :=
  let s1 := s.issue (.sysOpen path)
  if r = -1 then s1 else { s1 with fds := r :: s1.fds }

/-- The constructor `Dmaheap()`, run in a process with the given page size,
open descriptors and mappings; `r1` and `r2` are the results of opening the
primary and the alternate device path. -/
def construct (pageSize : Nat) (fds : List Int) (maps : List Mapping)
    (r1 r2 : Int) : State :=
  let s : State := ⟨[], 0, pageSize, fds, maps, []⟩
  let s : State := { sysOpen s DMA_HEAP_CMA_NAME r1 with dmaheapHandle_ := r1 }
  if s.dmaheapHandle_ = -1 then
    { sysOpen s DMA_HEAP_CMA_ALT_NAME r2 with dmaheapHandle_ := r2 }
  else s

/-- The member `void *alloc(const char *name, unsigned int size)`; `none` is
the `nullptr` result. -/
def alloc (s : State) (name : String) (size : Nat) (k : KernelReply) :
    Option Nat × State :=
  let pageSize := s.pageSize % 2 ^ 32
  let size := alignedSize size pageSize
  let s := s.issue (.ioctlAlloc s.dmaheapHandle_ size)
  match k.allocFd with
  | none => (none, s)
  | some fd =>
    let s := { s with fds := (fd : Int) :: s.fds }
    let s := s.issue (.ioctlSetName (toInt fd) name)
    let s := s.issue (.mmap size (toInt fd))
    match k.mmapAddr with
    | none => (none, sysClose s (toInt fd))
    | some user_ptr =>
      let s := { s with maps := ⟨user_ptr, size, toInt fd⟩ :: s.maps }
      (some user_ptr,
        { s with allocMap_ := s.allocMap_.emplace user_ptr ⟨toInt fd, toInt size⟩ })

/-- The private member `remove`: returns the iterator and the new state.
`find` never exceeds the length, so `it < length` is `it != end()`. -/
def remove (s : State) (user_ptr : Nat) : Nat × State :=
  let it := s.allocMap_.find user_ptr
  if h : it < s.allocMap_.length then
    let handle := (s.allocMap_.get ⟨it, h⟩).2.handle
    let size := (s.allocMap_.get ⟨it, h⟩).2.size
    let s := sysMunmap s user_ptr (toSizeT size)
    let s := sysClose s handle
    (it, { s with allocMap_ := s.allocMap_.eraseIdx it })
  else (it, s)

/-- The member `void free(void *user_ptr)`. -/
def free (s : State) (user_ptr : Nat) : State :=
  (remove s user_ptr).2

/-- The member `unsigned int getHandle(void *user_ptr)`. -/
def getHandle (s : State) (user_ptr : Nat) : Nat × State :=
  let it := s.allocMap_.find user_ptr
  if h : it < s.allocMap_.length then
    (toUInt (s.allocMap_.get ⟨it, h⟩).2.handle, s)
  else (0, s)

/-- The loop of the destructor, `while (it != end()) it = remove(it->first)`,
run for at most `fuel` iterations; `none` when the fuel runs out. -/
def removeAll : Nat → State → Nat → Option State
  | 0, _, _ => none
  | fuel + 1, s, it =>
    if h : it < s.allocMap_.length then
      let r := remove s (s.allocMap_.get ⟨it, h⟩).1
      removeAll fuel r.2 r.1
    else some s

/-- The destructor `~Dmaheap()`. -/
def destruct (fuel : Nat) (s : State) : Option State :=
  (removeAll fuel s 0).map fun s =>
    if s.dmaheapHandle_ ≠ 0 then sysClose s s.dmaheapHandle_ else s

/-! ## Predicates on states -/

/-- The addresses currently tracked. -/
def AllocMap.keys (m : AllocMap) : List Nat := m.map Prod.fst

/-- Every tracked address lies inside a live mapping. -/
def TrackedMapped (s : State) : Prop :=
  ∀ e ∈ s.allocMap_, ∃ m ∈ s.maps, m.addr ≤ e.1 ∧ e.1 < m.addr + m.len

instance (s : State) : Decidable (TrackedMapped s) := by
  unfold TrackedMapped; infer_instance

/-- The contract of the kernel for the replies to `alloc(name, size)` in state
`s`.  `DMA_HEAP_IOCTL_ALLOC` succeeds only on an open descriptor and creates a
descriptor that is a non-negative `int` and was not open; `mmap` succeeds only
for a non-zero length and returns a range inside the user address space that
overlaps no live mapping. -/
def kernelOk (s : State) (size : Nat) (k : KernelReply) : Prop :=
  (match k.allocFd with
    | none => True
    | some fd => fd < 2 ^ 31 ∧ (fd : Int) ∉ s.fds ∧ s.dmaheapHandle_ ∈ s.fds) ∧
  (match k.mmapAddr with
    | none => True
    | some a =>
      0 < alignedSize size (s.pageSize % 2 ^ 32) ∧
      a + alignedSize size (s.pageSize % 2 ^ 32) ≤ TASK_SIZE ∧
      ∀ m ∈ s.maps,
        a + alignedSize size (s.pageSize % 2 ^ 32) ≤ m.addr ∨ m.addr + m.len ≤ a)

instance (s : State) (size : Nat) (k : KernelReply) : Decidable (kernelOk s size k) := by
  unfold kernelOk
  cases k.allocFd <;> cases k.mmapAddr <;> infer_instance

/-! ## Reachable states -/

/-- Two mappings share no byte. -/
def Mapping.Apart (m n : Mapping) : Prop :=
  m.addr + m.len ≤ n.addr ∨ n.addr + n.len ≤ m.addr

instance (m n : Mapping) : Decidable (m.Apart n) := by
  unfold Mapping.Apart; infer_instance

/-- The mappings of a process: none is empty, none leaves the user address
space, and two different ones share no byte. -/
def mapsOk (maps : List Mapping) : Prop :=
  (∀ m ∈ maps, 0 < m.len ∧ m.addr + m.len ≤ TASK_SIZE) ∧
  ∀ m ∈ maps, ∀ n ∈ maps, m = n ∨ m.Apart n

instance (maps : List Mapping) : Decidable (mapsOk maps) := by
  unfold mapsOk; infer_instance

/-- The contract of `open`: it fails with `-1` or returns a non-negative
descriptor that was not open. -/
def openOk (fds : List Int) (r : Int) : Prop :=
  r = -1 ∨ (0 ≤ r ∧ r ∉ fds)

instance (fds : List Int) (r : Int) : Decidable (openOk fds r) := by
  unfold openOk; infer_instance

/-- The states reachable from a freshly constructed `Dmaheap` by `alloc`,
`free` and `getHandle` calls, the kernel keeping its contract. -/
inductive Reachable : State → Prop
  | init (pageSize : Nat) (fds : List Int) (maps : List Mapping) (r1 r2 : Int) :
      mapsOk maps → openOk fds r1 → openOk fds r2 →
      Reachable (construct pageSize fds maps r1 r2)
  | afterAlloc (s : State) (name : String) (size : Nat) (k : KernelReply) :
      Reachable s → kernelOk s size k → Reachable (alloc s name size k).2
  | afterFree (s : State) (p : Nat) : Reachable s → Reachable (free s p)
  | afterGetHandle (s : State) (p : Nat) : Reachable s → Reachable (getHandle s p).2

/-- The invariant of the reachable states: the table is in key order, the
live mappings are well formed, and every record has a live mapping starting at
its address whose length either is the stored size converted to `size_t`, or
is not recoverable because that value exceeds the user address space. -/
def Consistent (s : State) : Prop :=
  s.allocMap_.Ordered ∧ mapsOk s.maps ∧
  ∀ e ∈ s.allocMap_, ∃ m ∈ s.maps, m.addr = e.1 ∧
    (toSizeT e.2.size = m.len ∨ TASK_SIZE < toSizeT e.2.size)

instance (s : State) : Decidable (Consistent s) := by
  unfold Consistent; infer_instance

/-- The lockstep of C3 in a process whose only mappings are those `alloc`
created: every record has its handle open and a live mapping at its address
made from that handle, and every live mapping has a record with its address
and handle. -/
def Lockstep (s : State) : Prop :=
  (∀ e ∈ s.allocMap_, e.2.handle ∈ s.fds ∧
    ∃ m ∈ s.maps, m.addr = e.1 ∧ m.fd = e.2.handle) ∧
  (∀ m ∈ s.maps, m.fd ∈ s.fds ∧
    ∃ e ∈ s.allocMap_, e.1 = m.addr ∧ e.2.handle = m.fd)

instance (s : State) : Decidable (Lockstep s) := by
  unfold Lockstep; infer_instance

/-! ## Example runs -/

/-- A fresh `Dmaheap` in a process with 4096-byte pages and the three standard
descriptors open; the primary device path opens as descriptor 3. -/
def freshHeap : State := construct 4096 [0, 1, 2] [] 3 (-1)

/-- The kernel grants a buffer as descriptor 4 and maps it at
`0x7f0000000000`. -/
def grant : KernelReply := ⟨some 4, some 0x7f0000000000⟩

/-- The state after `alloc("buf", 0x80000000)` succeeded on `freshHeap`. -/
def twoGiB : State := (alloc freshHeap "buf" 0x80000000 grant).2

/-- The state after `alloc("buf", 5000)` succeeded on `freshHeap`. -/
def onePage : State := (alloc freshHeap "buf" 5000 grant).2

/-- A `Dmaheap` holding device descriptor 3 in a process where descriptor 0
is not open (standard input was closed). -/
def noStdin : State := ⟨[], 3, 4096, [3, 1, 2], [], []⟩

/-- The kernel grants a buffer as descriptor 0, the lowest free one, and maps
it at `0x7f0000000000`. -/
def grantZero : KernelReply := ⟨some 0, some 0x7f0000000000⟩

/-! ## Facts about the tracker table -/

theorem AllocMap.find_le_length (m : AllocMap) (p : Nat) : m.find p ≤ m.length := by
  induction m with
  | nil => simp [AllocMap.find]
  | cons e rest ih =>
    obtain ⟨q, w⟩ := e
    by_cases h : q = p <;> simp [AllocMap.find, h]
    exact ih

theorem AllocMap.find_lt_iff (m : AllocMap) (p : Nat) :
    m.find p < m.length ↔ p ∈ m.keys := by
  induction m with
  | nil => simp [AllocMap.find, AllocMap.keys]
  | cons e rest ih =>
    obtain ⟨q, w⟩ := e
    by_cases h : q = p
    · simp [AllocMap.find, AllocMap.keys, h]
    · have h2 : ¬ p = q := fun x => h x.symm
      simp only [AllocMap.keys] at ih
      simp [AllocMap.find, AllocMap.keys, h, h2, ih]

theorem AllocMap.find_eq_length (m : AllocMap) (p : Nat) (h : p ∉ m.keys) :
    m.find p = m.length := by
  have h1 := AllocMap.find_le_length m p
  have h2 := (AllocMap.find_lt_iff m p).not.mpr h
  omega

/-- The entry at the position returned by `find` carries the key looked up. -/
theorem AllocMap.getElem?_find_key (m : AllocMap) (p : Nat) (e : Nat × AllocInfo)
    (h : m[m.find p]? = some e) : e.1 = p := by
  induction m with
  | nil => simp [AllocMap.find] at h
  | cons e2 rest ih =>
    obtain ⟨q, w⟩ := e2
    by_cases hq : q = p
    · simp [AllocMap.find, hq] at h
      rw [← h]
    · simp only [AllocMap.find, hq, if_false, List.getElem?_cons_succ] at h
      exact ih h

/-- Looking up a key that was absent before `emplace` finds the new record. -/
theorem AllocMap.getElem?_find_emplace (m : AllocMap) (p : Nat) (v : AllocInfo)
    (hp : p ∉ m.keys) : (m.emplace p v)[(m.emplace p v).find p]? = some (p, v) := by
  induction m with
  | nil => simp [AllocMap.emplace, AllocMap.find]
  | cons e rest ih =>
    obtain ⟨r, w⟩ := e
    have hr : ¬ p = r := by
      intro x; apply hp; simp [AllocMap.keys, x]
    have hr2 : ¬ r = p := fun x => hr x.symm
    have hrest : p ∉ AllocMap.keys rest := by
      intro x; apply hp; simp only [AllocMap.keys, List.map_cons, List.mem_cons]
      exact Or.inr x
    simp only [AllocMap.emplace, hr, if_false]
    split
    · simp [AllocMap.find]
    · simp only [AllocMap.find, hr2, if_false, List.getElem?_cons_succ]
      exact ih hrest

/-- In an ordered table, erasing the entry found for a key removes the key. -/
theorem AllocMap.not_mem_keys_eraseIdx_find (m : AllocMap) (p : Nat)
    (ho : m.Ordered) : p ∉ AllocMap.keys (m.eraseIdx (m.find p)) := by
  induction m with
  | nil => simp [AllocMap.keys]
  | cons e rest ih =>
    obtain ⟨q, w⟩ := e
    have ho2 : AllocMap.Ordered rest := (List.pairwise_cons.mp ho).2
    have hlt := (List.pairwise_cons.mp ho).1
    by_cases hq : q = p
    · subst hq
      simp only [AllocMap.find, if_true, List.eraseIdx_cons_zero, AllocMap.keys]
      intro hmem
      obtain ⟨e, he, hk⟩ := List.mem_map.mp hmem
      have := hlt e he
      simp only at this
      omega
    · simp only [AllocMap.find, hq, if_false, List.eraseIdx_cons_succ, AllocMap.keys,
        List.map_cons, List.mem_cons, not_or]
      exact ⟨fun x => hq x.symm, ih ho2⟩

/-! ## Page alignment -/

/-- Masking a 32-bit value with `2^32 - 2^k` clears its low `k` bits. -/
theorem land_high_mask (x k : Nat) (hx : x < 2 ^ 32) (hk : k ≤ 32) :
    x &&& (2 ^ 32 - 2 ^ k) = 2 ^ k * (x / 2 ^ k) := by
  have hpos : 0 < 2 ^ k := Nat.two_pow_pos k
  have hlt : 2 ^ k - 1 < 2 ^ 32 := by
    have : 2 ^ k ≤ 2 ^ 32 := Nat.pow_le_pow_right (by decide) hk
    omega
  have hmask : 2 ^ 32 - 2 ^ k = 2 ^ 32 - ((2 ^ k - 1) + 1) := by omega
  apply Nat.eq_of_testBit_eq
  intro i
  rw [Nat.testBit_and, hmask, Nat.testBit_two_pow_sub_succ hlt, Nat.testBit_two_pow_sub_one,
    Nat.testBit_mul_pow_two, ← Nat.shiftRight_eq_div_pow, Nat.testBit_shiftRight]
  by_cases hik : i < k
  · have : ¬ (i ≥ k) := by omega
    simp [hik, this]
  · have hge : i ≥ k := by omega
    have hadd : k + (i - k) = i := by omega
    by_cases hi : i < 32
    · simp [hik, hge, hi, hadd]
    · have hx0 : x.testBit i = false := by
        apply Nat.testBit_lt_two_pow
        exact Nat.lt_of_lt_of_le hx (Nat.pow_le_pow_right (by decide) (by omega))
      simp [hik, hge, hi, hadd, hx0]

/-- The value of `alignedSize` when `size + pageSize - 1` does not overflow. -/
theorem alignedSize_eq (s k : Nat) (hk : k < 32) (h : s + 2 ^ k ≤ 2 ^ 32) :
    alignedSize s (2 ^ k) = 2 ^ k * ((s + 2 ^ k - 1) / 2 ^ k) := by
  have hpos : 0 < 2 ^ k := Nat.two_pow_pos k
  have hP : 2 ^ k < 2 ^ 32 := Nat.pow_lt_pow_right (by decide) hk
  have hx : sub32 (add32 s (2 ^ k)) 1 = s + 2 ^ k - 1 := by
    unfold sub32 add32
    rcases Nat.lt_or_ge (s + 2 ^ k) (2 ^ 32) with hlt | hge
    · rw [Nat.mod_eq_of_lt hlt, Nat.mod_eq_of_lt hlt]
      omega
    · have heq : s + 2 ^ k = 2 ^ 32 := by omega
      rw [heq]
      simp
  have hm : not32 (sub32 (2 ^ k) 1) = 2 ^ 32 - 2 ^ k := by
    unfold not32 sub32
    rw [Nat.mod_eq_of_lt hP]
    omega
  have hxlt : s + 2 ^ k - 1 < 2 ^ 32 := by omega
  have hmlt : 2 ^ 32 - 2 ^ k < 2 ^ 32 := by omega
  unfold alignedSize
  rw [hx, hm]
  unfold and32
  rw [Nat.mod_eq_of_lt hxlt, Nat.mod_eq_of_lt hmlt]
  exact land_high_mask _ _ hxlt (by omega)

/-- C4 (as amended): when `size + pageSize - 1` fits in an `unsigned int`
and the page size is a power of two, the size `alloc` reserves is the
smallest multiple of the page size that is at least the requested size. -/
theorem alignedSize_least_multiple (s k : Nat) (hk : k < 32)
    (h : s + 2 ^ k ≤ 2 ^ 32) :
    2 ^ k ∣ alignedSize s (2 ^ k) ∧ s ≤ alignedSize s (2 ^ k) ∧
      ∀ m, 2 ^ k ∣ m → s ≤ m → alignedSize s (2 ^ k) ≤ m := by
  have hpos : 0 < 2 ^ k := Nat.two_pow_pos k
  rw [alignedSize_eq s k hk h]
  refine ⟨Dvd.intro _ rfl, ?_, ?_⟩
  · have h1 := Nat.div_add_mod (s + 2 ^ k - 1) (2 ^ k)
    have h2 := Nat.mod_lt (s + 2 ^ k - 1) hpos
    omega
  · rintro m ⟨c, rfl⟩ hsm
    apply Nat.mul_le_mul_left
    apply Nat.le_of_lt_succ
    rw [Nat.div_lt_iff_lt_mul hpos]
    show s + 2 ^ k - 1 < (c + 1) * 2 ^ k
    have hc : (c + 1) * 2 ^ k = 2 ^ k * c + 2 ^ k := by ring
    rw [hc]
    generalize 2 ^ k * c = q at hsm ⊢
    omega

/-- C4 witness: a request of 5000 bytes with 4096-byte pages. -/
theorem alignedSize_least_multiple_witness :
    5000 + 2 ^ 12 ≤ 2 ^ 32 ∧ 2 ^ 12 ∣ alignedSize 5000 (2 ^ 12) ∧
      5000 ≤ alignedSize 5000 (2 ^ 12) ∧
      ∀ m, 2 ^ 12 ∣ m → 5000 ≤ m → alignedSize 5000 (2 ^ 12) ≤ m :=
  ⟨by decide, alignedSize_least_multiple 5000 12 (by decide) (by decide)⟩

/-- C4 counterexample: for the request `2^32 - 1` with 4096-byte pages the sum
`size + pageSize - 1` wraps and `alloc` reserves 0 bytes, which is below the
request. -/
theorem alignedSize_wraps :
    4294967295 < 2 ^ 32 ∧ alignedSize 4294967295 (2 ^ 12) = 0 ∧
      ¬ (4294967295 ≤ alignedSize 4294967295 (2 ^ 12)) := by
  decide

/-! ## Conversions -/

theorem toInt_of_lt (n : Nat) (h : n < 2 ^ 31) : toInt n = (n : Int) := by
  unfold toInt
  have h1 : n % 2 ^ 32 = n := Nat.mod_eq_of_lt (by omega)
  rw [h1, if_pos h]

theorem toUInt_natCast (n : Nat) (h : n < 2 ^ 32) : toUInt (n : Int) = n := by
  unfold toUInt
  have h2 : ((n : Int) % 2 ^ 32) = ((n % 2 ^ 32 : Nat) : Int) := by norm_cast
  rw [h2, Nat.mod_eq_of_lt h]
  simp

/-! ## Untracked addresses -/

theorem remove_untracked (s : State) (p : Nat) (h : p ∉ s.allocMap_.keys) :
    remove s p = (s.allocMap_.length, s) := by
  have hf := AllocMap.find_eq_length s.allocMap_ p h
  unfold remove
  simp [hf]

theorem getHandle_untracked (s : State) (p : Nat) (h : p ∉ s.allocMap_.keys) :
    getHandle s p = (0, s) := by
  have hf := AllocMap.find_eq_length s.allocMap_ p h
  unfold getHandle
  simp [hf]

/-- The table after `remove`. -/
theorem remove_allocMap (s : State) (p : Nat) :
    (remove s p).2.allocMap_ = s.allocMap_.eraseIdx (s.allocMap_.find p) := by
  unfold remove
  by_cases h : s.allocMap_.find p < s.allocMap_.length
  · simp [h, sysClose, sysMunmap, State.issue]
    split <;> rfl
  · have hle := AllocMap.find_le_length s.allocMap_ p
    have heq : s.allocMap_.find p = s.allocMap_.length := by omega
    simp [heq, List.eraseIdx_of_length_le]

/-- C8: for an address that is not tracked, `getHandle` returns 0 and leaves
the state as it was, and `free` leaves the whole state as it was: the table is
unchanged and the trace of system calls gains no `munmap` and no `close`. -/
theorem untracked_getHandle_free (s : State) (p : Nat) (h : p ∉ s.allocMap_.keys) :
    getHandle s p = (0, s) ∧ free s p = s := by
  refine ⟨getHandle_untracked s p h, ?_⟩
  unfold free
  rw [remove_untracked s p h]

/-- C7: in every state, `free(p)` twice gives the same state as `free(p)`
once: the same table, open descriptors, live mappings and trace of system
calls, so the second call issues no `munmap` and no `close`. -/
theorem free_idempotent (s : State) (p : Nat) (ho : s.allocMap_.Ordered) :
    free (free s p) p = free s p ∧ (free (free s p) p).trace = (free s p).trace := by
  have hgone : p ∉ (free s p).allocMap_.keys := by
    unfold free
    rw [remove_allocMap]
    exact AllocMap.not_mem_keys_eraseIdx_find _ p ho
  have h : free (free s p) p = free s p := by
    show (remove (free s p) p).2 = free s p
    rw [remove_untracked (free s p) p hgone]
  exact ⟨h, by rw [h]⟩

/-! ## Allocation -/

/-- C2: every `nullptr` return of `alloc` leaves the table, the open
descriptors and the live mappings as they were before the call; a descriptor
the kernel created for the attempt has been closed again. -/
theorem alloc_failure_releases (s : State) (name : String) (size : Nat)
    (k : KernelReply) (hk : kernelOk s size k)
    (h : (alloc s name size k).1 = none) :
    (alloc s name size k).2.allocMap_ = s.allocMap_ ∧
    (alloc s name size k).2.fds = s.fds ∧
    (alloc s name size k).2.maps = s.maps ∧
    ∀ fd, k.allocFd = some fd →
      Syscall.close fd ∈ (alloc s name size k).2.trace ∧
      (fd : Int) ∉ (alloc s name size k).2.fds := by
  obtain ⟨afd, maddr⟩ := k
  cases afd with
  | none => simp [alloc, State.issue]
  | some fd =>
    have hfd : fd < 2 ^ 31 := hk.1.1
    have hfresh : (fd : Int) ∉ s.fds := hk.1.2.1
    have hconv := toInt_of_lt fd hfd
    cases maddr with
    | none =>
      simp only [alloc, sysClose, State.issue, hconv, List.erase_cons_head]
      refine ⟨trivial, trivial, trivial, ?_⟩
      intro fd2 h2
      cases h2
      exact ⟨by simp, hfresh⟩
    | some a => simp [alloc] at h

theorem getHandle_of_entry (s : State) (p : Nat) (e : Nat × AllocInfo)
    (h : s.allocMap_[s.allocMap_.find p]? = some e) :
    getHandle s p = (toUInt e.2.handle, s) := by
  obtain ⟨hlt, heq⟩ := List.getElem?_eq_some.mp h
  unfold getHandle
  simp only [hlt, dite_true, List.get_eq_getElem, heq]

/-- An address the kernel may return from `mmap` is not tracked, when every
tracked address is mapped. -/
theorem fresh_not_tracked (s : State) (a len : Nat) (hinv : TrackedMapped s)
    (hlen : 0 < len) (hfresh : ∀ m ∈ s.maps, a + len ≤ m.addr ∨ m.addr + m.len ≤ a) :
    a ∉ s.allocMap_.keys := by
  intro hmem
  obtain ⟨e, he, hk⟩ := List.mem_map.mp hmem
  obtain ⟨m, hm, h1, h2⟩ := hinv e he
  have := hfresh m hm
  omega

/-- C1 (as amended): when every tracked address is mapped and the kernel
keeps its contract, a successful `alloc` returning `p` is followed by a
`getHandle(p)` that returns the descriptor `alloc.fd` the kernel created and
leaves the state as it is; the result differs from 0 when descriptor 0 is
open in the process. -/
theorem alloc_then_getHandle (s : State) (name : String) (size : Nat)
    (k : KernelReply) (p : Nat) (hinv : TrackedMapped s) (hk : kernelOk s size k)
    (h : (alloc s name size k).1 = some p) :
    ∃ fd, k.allocFd = some fd ∧
      getHandle (alloc s name size k).2 p = (fd, (alloc s name size k).2) ∧
      ((0 : Int) ∈ s.fds → (getHandle (alloc s name size k).2 p).1 ≠ 0) := by
  obtain ⟨afd, maddr⟩ := k
  cases afd with
  | none => simp [alloc] at h
  | some fd =>
    cases maddr with
    | none => simp [alloc] at h
    | some a =>
      have hfd : fd < 2 ^ 31 := hk.1.1
      have hfresh : (fd : Int) ∉ s.fds := hk.1.2.1
      have hpa : a = p := by simpa [alloc] using h
      subst hpa
      have hnt : a ∉ s.allocMap_.keys :=
        fresh_not_tracked s a _ hinv hk.2.1 hk.2.2.2
      have hget : getHandle (alloc s name size ⟨some fd, some a⟩).2 a =
          (fd, (alloc s name size ⟨some fd, some a⟩).2) := by
        have hentry := AllocMap.getElem?_find_emplace s.allocMap_ a
          ⟨toInt fd, toInt (alignedSize size (s.pageSize % 2 ^ 32))⟩ hnt
        have hg := getHandle_of_entry (alloc s name size ⟨some fd, some a⟩).2 a _ hentry
        rw [hg]
        simp only [toInt_of_lt fd hfd]
        rw [toUInt_natCast fd (by omega)]
      refine ⟨fd, rfl, hget, ?_⟩
      intro h0
      rw [hget]
      intro hz
      simp only at hz
      subst hz
      exact hfresh (by simpa using h0)

/-! ## Concrete runs -/

/-- C8 witness: address `0x1000` is not tracked after one allocation at
`0x7f0000000000`. -/
theorem untracked_getHandle_free_witness :
    0x1000 ∉ onePage.allocMap_.keys ∧
      getHandle onePage 0x1000 = (0, onePage) ∧ free onePage 0x1000 = onePage :=
  ⟨by decide, untracked_getHandle_free onePage 0x1000 (by decide)⟩

/-- C7 witness: releasing the one tracked address twice. -/
theorem free_idempotent_witness :
    onePage.allocMap_.Ordered ∧
      free (free onePage 0x7f0000000000) 0x7f0000000000 = free onePage 0x7f0000000000 ∧
      (free (free onePage 0x7f0000000000) 0x7f0000000000).trace =
        (free onePage 0x7f0000000000).trace :=
  ⟨by decide, free_idempotent onePage 0x7f0000000000 (by decide)⟩

/-- C2 witness: the kernel grants descriptor 4 and then refuses the mapping. -/
theorem alloc_failure_releases_witness :
    kernelOk freshHeap 5000 ⟨some 4, none⟩ ∧
    (alloc freshHeap "buf" 5000 ⟨some 4, none⟩).1 = none ∧
    (alloc freshHeap "buf" 5000 ⟨some 4, none⟩).2.allocMap_ = freshHeap.allocMap_ ∧
    (alloc freshHeap "buf" 5000 ⟨some 4, none⟩).2.fds = freshHeap.fds ∧
    (alloc freshHeap "buf" 5000 ⟨some 4, none⟩).2.maps = freshHeap.maps ∧
    ∀ fd, (⟨some 4, none⟩ : KernelReply).allocFd = some fd →
      Syscall.close fd ∈ (alloc freshHeap "buf" 5000 ⟨some 4, none⟩).2.trace ∧
      (fd : Int) ∉ (alloc freshHeap "buf" 5000 ⟨some 4, none⟩).2.fds :=
  ⟨by decide, by decide,
    alloc_failure_releases freshHeap "buf" 5000 ⟨some 4, none⟩ (by decide) (by decide)⟩

/-- C1 witness: one allocation on a fresh heap, descriptor 0 being open. -/
theorem alloc_then_getHandle_witness :
    TrackedMapped freshHeap ∧ kernelOk freshHeap 5000 grant ∧
    (alloc freshHeap "buf" 5000 grant).1 = some 0x7f0000000000 ∧
    ∃ fd, grant.allocFd = some fd ∧
      getHandle (alloc freshHeap "buf" 5000 grant).2 0x7f0000000000 =
        (fd, (alloc freshHeap "buf" 5000 grant).2) ∧
      ((0 : Int) ∈ freshHeap.fds →
        (getHandle (alloc freshHeap "buf" 5000 grant).2 0x7f0000000000).1 ≠ 0) :=
  ⟨by decide, by decide, by decide,
    alloc_then_getHandle freshHeap "buf" 5000 grant 0x7f0000000000
      (by decide) (by decide) (by decide)⟩

/-- C1 counterexample: in a process where descriptor 0 is not open the kernel
may create the buffer as descriptor 0; `alloc` succeeds and tracks it, and
`getHandle` of the returned address is 0, the value it also returns for an
untracked address. -/
theorem getHandle_zero_after_alloc :
    TrackedMapped noStdin ∧ kernelOk noStdin 5000 grantZero ∧
    (alloc noStdin "buf" 5000 grantZero).1 = some 0x7f0000000000 ∧
    (alloc noStdin "buf" 5000 grantZero).2.allocMap_ = [(0x7f0000000000, ⟨0, 8192⟩)] ∧
    (getHandle (alloc noStdin "buf" 5000 grantZero).2 0x7f0000000000).1 = 0 ∧
    (getHandle (alloc noStdin "buf" 5000 grantZero).2 0x1000).1 = 0 := by
  decide

/-- C10: after `alloc("buf", 0x80000000)` succeeds with 4096-byte pages, the
stored `size` is `-2147483648`: not positive, and not the 2147483648 bytes
that were mapped; converted to `size_t` for `munmap` it is
18446744071562067968. -/
theorem alloc_stores_negative_size :
    kernelOk freshHeap 0x80000000 grant ∧
    (alloc freshHeap "buf" 0x80000000 grant).1 = some 0x7f0000000000 ∧
    twoGiB.allocMap_ = [(0x7f0000000000, ⟨4, -2147483648⟩)] ∧
    twoGiB.maps = [⟨0x7f0000000000, 2147483648, 4⟩] ∧
    Syscall.mmap 2147483648 4 ∈ twoGiB.trace ∧
    toSizeT (-2147483648) = 18446744071562067968 := by
  decide

/-- C6: `free` of the address tracked in `twoGiB` erases the record and closes
descriptor 4, but its `munmap` is issued with length 18446744071562067968 and
rejected: the 2 GiB region stays mapped. -/
theorem free_leaves_region_mapped :
    0x7f0000000000 ∈ twoGiB.allocMap_.keys ∧
    (free twoGiB 0x7f0000000000).allocMap_ = [] ∧
    (free twoGiB 0x7f0000000000).fds = [3, 0, 1, 2] ∧
    (free twoGiB 0x7f0000000000).maps = [⟨0x7f0000000000, 2147483648, 4⟩] ∧
    (free twoGiB 0x7f0000000000).trace = twoGiB.trace ++
      [.munmap 0x7f0000000000 18446744071562067968, .close 4] := by
  decide

/-- C3: `free` breaks the lockstep of record, handle and mapping.  The fresh
heap has no mapping and is in lockstep; after `alloc("buf", 0x80000000)` the
reachable state `twoGiB` is in lockstep, with one record, descriptor 4 open
and one mapping; after `free` of that address the reachable state has an
empty table and descriptor 4 closed while the mapping made from descriptor 4
is still live, so it is out of lockstep: a mapping without a handle and
without a record. -/
theorem free_breaks_lockstep :
    freshHeap.maps = [] ∧ Lockstep freshHeap ∧
    Reachable twoGiB ∧ Lockstep twoGiB ∧
    twoGiB.allocMap_ = [(0x7f0000000000, ⟨4, -2147483648⟩)] ∧
    (4 : Int) ∈ twoGiB.fds ∧
    twoGiB.maps = [⟨0x7f0000000000, 2147483648, 4⟩] ∧
    Reachable (free twoGiB 0x7f0000000000) ∧
    (free twoGiB 0x7f0000000000).allocMap_ = [] ∧
    (4 : Int) ∉ (free twoGiB 0x7f0000000000).fds ∧
    (free twoGiB 0x7f0000000000).maps = [⟨0x7f0000000000, 2147483648, 4⟩] ∧
    ¬ Lockstep (free twoGiB 0x7f0000000000) := by
  have hr : Reachable twoGiB := by
    apply Reachable.afterAlloc
    · exact Reachable.init 4096 [0, 1, 2] [] 3 (-1) (by decide) (by decide) (by decide)
    · decide
  exact ⟨by decide, by decide, hr, by decide, by decide, by decide, by decide,
    Reachable.afterFree _ _ hr, by decide, by decide, by decide, by decide⟩

/-- C5: the destructor run on `twoGiB` terminates, empties the table and
closes descriptor 4 and the device descriptor 3, but the `munmap` it issues
is rejected and the 2 GiB mapping is still live afterwards. -/
theorem destruct_leaves_region_mapped :
    (destruct 2 twoGiB).map (fun s => (s.allocMap_, s.fds, s.maps)) =
      some ([], [0, 1, 2], [⟨0x7f0000000000, 2147483648, 4⟩]) ∧
    (destruct 2 twoGiB).map (fun s => s.trace) = some (twoGiB.trace ++
      [.munmap 0x7f0000000000 18446744071562067968, .close 4, .close 3]) := by
  decide

/-- C9: when both opens fail the destructor still issues `close(-1)`; when the
device opens as descriptor 0 the destructor issues no `close` and the
descriptor stays open. -/
theorem destruct_session_handle :
    (construct 4096 [0, 1, 2] [] (-1) (-1)).dmaheapHandle_ = -1 ∧
    (destruct 1 (construct 4096 [0, 1, 2] [] (-1) (-1))).map (fun s => s.trace) =
      some [.sysOpen DMA_HEAP_CMA_NAME, .sysOpen DMA_HEAP_CMA_ALT_NAME, .close (-1)] ∧
    (construct 4096 [1, 2] [] 0 (-1)).dmaheapHandle_ = 0 ∧
    (destruct 1 (construct 4096 [1, 2] [] 0 (-1))).map (fun s => (s.fds, s.trace)) =
      some ([0, 1, 2], [.sysOpen DMA_HEAP_CMA_NAME]) := by
  decide

/-! ## The invariant of reachable states -/

theorem AllocMap.mem_emplace (m : AllocMap) (p : Nat) (v : AllocInfo)
    (e : Nat × AllocInfo) (h : e ∈ m.emplace p v) : e = (p, v) ∨ e ∈ m := by
  induction m with
  | nil => simpa [AllocMap.emplace] using h
  | cons e2 rest ih =>
    obtain ⟨q, w⟩ := e2
    simp only [AllocMap.emplace] at h
    split at h
    · simpa using h
    · split at h
      · exact Or.inr h
      · rcases List.mem_cons.mp h with h1 | h1
        · exact Or.inr (by simp [h1])
        · rcases ih h1 with h2 | h2
          · exact Or.inl h2
          · exact Or.inr (List.mem_cons_of_mem _ h2)

/-- The call `emplace` keeps the table in key order. -/
theorem AllocMap.emplace_ordered (m : AllocMap) (p : Nat) (v : AllocInfo)
    (ho : m.Ordered) : (m.emplace p v).Ordered := by
  induction m with
  | nil => simp [AllocMap.emplace, AllocMap.Ordered]
  | cons e2 rest ih =>
    obtain ⟨q, w⟩ := e2
    have hhead := (List.pairwise_cons.mp ho).1
    have htail : AllocMap.Ordered rest := (List.pairwise_cons.mp ho).2
    simp only [AllocMap.emplace]
    split
    · rename_i hpq
      refine List.pairwise_cons.mpr ⟨?_, ho⟩
      intro e he
      rcases List.mem_cons.mp he with h1 | h1
      · subst h1; exact hpq
      · have := hhead e h1
        simp only at this ⊢
        omega
    · split
      · exact ho
      · rename_i h1 h2
        refine List.pairwise_cons.mpr ⟨?_, ih htail⟩
        intro e he
        rcases AllocMap.mem_emplace rest p v e he with h3 | h3
        · subst h3
          simp only
          omega
        · exact hhead e h3

theorem alignedSize_lt (size pageSize : Nat) : alignedSize size pageSize < 2 ^ 32 := by
  unfold alignedSize and32
  exact Nat.lt_of_le_of_lt Nat.and_le_left (Nat.mod_lt _ (by decide))

/-- The stored size converts back to the mapped length, or to a length beyond
the user address space. -/
theorem toSizeT_toInt (n : Nat) (h : n < 2 ^ 32) :
    toSizeT (toInt n) = n ∨ TASK_SIZE < toSizeT (toInt n) := by
  unfold toSizeT toInt TASK_SIZE
  rw [Nat.mod_eq_of_lt h]
  norm_num
  split <;> omega

theorem Mapping.cut_self (m : Mapping) : m.cut m.addr m.len = [] := by
  simp [Mapping.cut]

theorem Mapping.cut_apart (m : Mapping) (a l : Nat) (hm : 0 < m.len) (hl : 0 < l)
    (h : m.addr + m.len ≤ a ∨ a + l ≤ m.addr) : m.cut a l = [m] := by
  obtain ⟨ma, ml, mf⟩ := m
  simp only at hm h
  rcases h with h | h
  · have h1 : ma < a := by omega
    have h2 : ¬ a + l < ma + ml := by omega
    have h3 : min ml (a - ma) = ml := by omega
    simp [Mapping.cut, h1, h2, h3]
  · have h1 : ¬ ma < a := by omega
    have h2 : a + l < ma + ml := by omega
    have h3 : max ma (a + l) = ma := by omega
    simp [Mapping.cut, h1, h2, h3]

/-- The state after `remove` of a tracked address. -/
theorem remove_tracked (s : State) (p : Nat) (e : Nat × AllocInfo)
    (h : s.allocMap_[s.allocMap_.find p]? = some e) :
    remove s p = (s.allocMap_.find p,
      { sysClose (sysMunmap s p (toSizeT e.2.size)) e.2.handle with
        allocMap_ := s.allocMap_.eraseIdx (s.allocMap_.find p) }) := by
  obtain ⟨hlt, heq⟩ := List.getElem?_eq_some.mp h
  unfold remove
  simp only [hlt, dite_true, List.get_eq_getElem, heq]
  have h1 : (sysClose (sysMunmap s p (toSizeT e.2.size)) e.2.handle).allocMap_ =
      s.allocMap_ := by
    unfold sysClose sysMunmap State.issue
    split <;> rfl
  rw [h1]

/-- The mappings left by an accepted `munmap` of exactly one of the live
mappings are the other live mappings. -/
theorem mem_flatMap_cut (maps : List Mapping) (hok : mapsOk maps) (mp : Mapping)
    (hmp : mp ∈ maps) (x : Mapping) :
    x ∈ maps.flatMap (Mapping.cut mp.addr mp.len) ↔ x ∈ maps ∧ x ≠ mp := by
  have hposp := (hok.1 mp hmp).1
  rw [List.mem_flatMap]
  constructor
  · rintro ⟨n, hn, hx⟩
    rcases hok.2 n hn mp hmp with h1 | h1
    · subst h1
      rw [Mapping.cut_self] at hx
      simp at hx
    · have hcut := Mapping.cut_apart n mp.addr mp.len (hok.1 n hn).1 hposp h1
      rw [hcut] at hx
      have hxn : x = n := by simpa using hx
      subst hxn
      refine ⟨hn, ?_⟩
      intro heq
      subst heq
      unfold Mapping.Apart at h1
      omega
  · rintro ⟨hx, hne⟩
    refine ⟨x, hx, ?_⟩
    rcases hok.2 x hx mp hmp with h1 | h1
    · exact absurd h1 hne
    · rw [Mapping.cut_apart x mp.addr mp.len (hok.1 x hx).1 hposp h1]
      simp

theorem mapsOk_of_subset (maps maps2 : List Mapping) (hok : mapsOk maps)
    (hsub : ∀ x ∈ maps2, x ∈ maps) : mapsOk maps2 :=
  ⟨fun m hm => hok.1 m (hsub m hm),
    fun m hm n hn => hok.2 m (hsub m hm) n (hsub n hn)⟩

/-- The call `free` preserves the invariant. -/
theorem free_consistent (s : State) (p : Nat) (hc : Consistent s) :
    Consistent (free s p) := by
  obtain ⟨ho, hok, hrec⟩ := hc
  by_cases ht : p ∈ s.allocMap_.keys
  · have hlt := (AllocMap.find_lt_iff s.allocMap_ p).mpr ht
    have hentry : s.allocMap_[s.allocMap_.find p]? =
        some (s.allocMap_[s.allocMap_.find p]) := List.getElem?_eq_getElem hlt
    generalize s.allocMap_[s.allocMap_.find p] = e at hentry
    have hkey := AllocMap.getElem?_find_key s.allocMap_ p e hentry
    have hmem : e ∈ s.allocMap_ := List.getElem?_mem hentry
    obtain ⟨mp, hmp, haddr, hlen⟩ := hrec e hmem
    have hfree : free s p = { sysClose (sysMunmap s p (toSizeT e.2.size)) e.2.handle with
        allocMap_ := s.allocMap_.eraseIdx (s.allocMap_.find p) } := by
      unfold free
      rw [remove_tracked s p e hentry]
    have hgone := AllocMap.not_mem_keys_eraseIdx_find s.allocMap_ p ho
    have hord : AllocMap.Ordered (s.allocMap_.eraseIdx (s.allocMap_.find p)) :=
      List.Pairwise.sublist (List.eraseIdx_sublist _ _) ho
    have hother : ∀ e2 ∈ s.allocMap_.eraseIdx (s.allocMap_.find p),
        e2 ∈ s.allocMap_ ∧ e2.1 ≠ p := by
      intro e2 he2
      refine ⟨List.mem_of_mem_eraseIdx he2, ?_⟩
      intro hk
      apply hgone
      exact List.mem_map.mpr ⟨e2, he2, hk⟩
    rw [hfree]
    by_cases hrej : toSizeT e.2.size = 0 ∨ TASK_SIZE < p ∨
        TASK_SIZE - p < toSizeT e.2.size
    · have hmaps : (sysMunmap s p (toSizeT e.2.size)).maps = s.maps := by
        unfold sysMunmap
        simp [hrej, State.issue]
      refine ⟨hord, ?_, ?_⟩
      · show mapsOk (sysMunmap s p (toSizeT e.2.size)).maps
        rw [hmaps]; exact hok
      · intro e2 he2
        show ∃ m ∈ (sysMunmap s p (toSizeT e.2.size)).maps, _
        rw [hmaps]
        exact hrec e2 (hother e2 he2).1
    · have hL : toSizeT e.2.size = mp.len := by
        rcases hlen with h1 | h1
        · exact h1
        · exfalso; apply hrej; right; right; omega
      have hpa : p = mp.addr := by rw [haddr, hkey]
      have hmaps : (sysMunmap s p (toSizeT e.2.size)).maps =
          s.maps.flatMap (Mapping.cut mp.addr mp.len) := by
        unfold sysMunmap
        simp only [hrej, if_false, State.issue]
        rw [hL, hpa]
      refine ⟨hord, ?_, ?_⟩
      · show mapsOk (sysMunmap s p (toSizeT e.2.size)).maps
        rw [hmaps]
        apply mapsOk_of_subset s.maps _ hok
        intro x hx
        exact ((mem_flatMap_cut s.maps hok mp hmp x).mp hx).1
      · intro e2 he2
        show ∃ m ∈ (sysMunmap s p (toSizeT e.2.size)).maps, _
        rw [hmaps]
        obtain ⟨h1, h2⟩ := hother e2 he2
        obtain ⟨m2, hm2, ha2, hl2⟩ := hrec e2 h1
        refine ⟨m2, ?_, ha2, hl2⟩
        apply (mem_flatMap_cut s.maps hok mp hmp m2).mpr
        refine ⟨hm2, ?_⟩
        intro heq
        apply h2
        rw [← ha2, heq, haddr, hkey]
  · have : free s p = s := by
      unfold free
      rw [remove_untracked s p ht]
    rw [this]
    exact ⟨ho, hok, hrec⟩

/-- The call `alloc` preserves the invariant when the kernel keeps its
contract. -/
theorem alloc_consistent (s : State) (name : String) (size : Nat) (k : KernelReply)
    (hc : Consistent s) (hk : kernelOk s size k) :
    Consistent (alloc s name size k).2 := by
  obtain ⟨ho, hok, hrec⟩ := hc
  obtain ⟨afd, maddr⟩ := k
  cases afd with
  | none => exact ⟨ho, hok, hrec⟩
  | some fd =>
    cases maddr with
    | none => exact ⟨ho, hok, hrec⟩
    | some a =>
      obtain ⟨hpos, hspace, hfresh⟩ := hk.2
      generalize hL : alignedSize size (s.pageSize % 2 ^ 32) = L at hpos hspace hfresh
      have hLlt : L < 2 ^ 32 := by rw [← hL]; exact alignedSize_lt _ _
      have hst : (alloc s name size ⟨some fd, some a⟩).2.allocMap_ =
          s.allocMap_.emplace a ⟨toInt fd, toInt L⟩ := by
        simp only [alloc, hL, State.issue]
      have hmp : (alloc s name size ⟨some fd, some a⟩).2.maps =
          ⟨a, L, toInt fd⟩ :: s.maps := by
        simp only [alloc, hL, State.issue]
      refine ⟨?_, ?_, ?_⟩
      · rw [hst]
        exact AllocMap.emplace_ordered _ _ _ ho
      · rw [hmp]
        constructor
        · intro m hm
          rcases List.mem_cons.mp hm with h1 | h1
          · subst h1; exact ⟨hpos, hspace⟩
          · exact hok.1 m h1
        · intro m hm n hn
          rcases List.mem_cons.mp hm with h1 | h1 <;>
            rcases List.mem_cons.mp hn with h2 | h2
          · left; rw [h1, h2]
          · right; subst h1
            exact hfresh n h2
          · right; subst h2
            have := hfresh m h1
            unfold Mapping.Apart
            simp only
            omega
          · exact hok.2 m h1 n h2
      · rw [hst, hmp]
        intro e he
        rcases AllocMap.mem_emplace _ _ _ _ he with h1 | h1
        · subst h1
          exact ⟨⟨a, L, toInt fd⟩, List.mem_cons_self _ _, rfl, toSizeT_toInt L hLlt⟩
        · obtain ⟨m, hm, h2, h3⟩ := hrec e h1
          exact ⟨m, List.mem_cons_of_mem _ hm, h2, h3⟩

/-- A freshly constructed object satisfies the invariant. -/
theorem construct_consistent (pageSize : Nat) (fds : List Int) (maps : List Mapping)
    (r1 r2 : Int) (hok : mapsOk maps) :
    Consistent (construct pageSize fds maps r1 r2) := by
  have h1 : (construct pageSize fds maps r1 r2).allocMap_ = [] := by
    unfold construct sysOpen State.issue
    by_cases h : r1 = -1 <;> by_cases h2 : r2 = -1 <;> simp [h, h2]
  have h2 : (construct pageSize fds maps r1 r2).maps = maps := by
    unfold construct sysOpen State.issue
    by_cases h : r1 = -1 <;> by_cases h2 : r2 = -1 <;> simp [h, h2]
  refine ⟨?_, ?_, ?_⟩
  · rw [h1]; exact List.Pairwise.nil
  · rw [h2]; exact hok
  · rw [h1]; simp

/-- Every reachable state satisfies the invariant. -/
theorem reachable_consistent (s : State) (h : Reachable s) : Consistent s := by
  induction h with
  | init pageSize fds maps r1 r2 hok _ _ => exact construct_consistent _ _ _ _ _ hok
  | afterAlloc s name size k _ hk ih => exact alloc_consistent s name size k ih hk
  | afterFree s p _ ih => exact free_consistent s p ih
  | afterGetHandle s p _ ih =>
    have : (getHandle s p).2 = s := by
      unfold getHandle
      by_cases hlt : s.allocMap_.find p < s.allocMap_.length <;> simp [hlt]
    rw [this]; exact ih

/-- In a state satisfying the invariant every tracked address is mapped. -/
theorem Consistent.trackedMapped (s : State) (hc : Consistent s) : TrackedMapped s := by
  intro e he
  obtain ⟨m, hm, h1, _⟩ := hc.2.2 e he
  have := (hc.2.1.1 m hm).1
  exact ⟨m, hm, by omega, by omega⟩

/-! ## What `free` and the destructor's loop always do -/

/-- The system calls, descriptor table and table after `free` of a tracked
address: `munmap` with the stored size and `close` of the stored handle are
issued, the handle leaves the descriptor table, the record is erased, a
following `getHandle` returns 0, and every other record is kept. -/
theorem free_tracked (s : State) (p : Nat) (e : Nat × AllocInfo)
    (ho : s.allocMap_.Ordered) (h : s.allocMap_[s.allocMap_.find p]? = some e) :
    (free s p).trace = s.trace ++ [.munmap p (toSizeT e.2.size), .close e.2.handle] ∧
    (free s p).fds = s.fds.erase e.2.handle ∧
    getHandle (free s p) p = (0, free s p) ∧
    ∀ e2 ∈ s.allocMap_, e2.1 ≠ p → e2 ∈ (free s p).allocMap_ := by
  have hgone : p ∉ (free s p).allocMap_.keys := by
    unfold free
    rw [remove_allocMap]
    exact AllocMap.not_mem_keys_eraseIdx_find _ p ho
  have hfree : free s p = { sysClose (sysMunmap s p (toSizeT e.2.size)) e.2.handle with
      allocMap_ := s.allocMap_.eraseIdx (s.allocMap_.find p) } := by
    unfold free
    rw [remove_tracked s p e h]
  refine ⟨?_, ?_, getHandle_untracked _ p hgone, ?_⟩
  · rw [hfree]
    unfold sysClose sysMunmap State.issue
    split <;> simp
  · rw [hfree]
    unfold sysClose sysMunmap State.issue
    split <;> rfl
  · intro e2 he2 hne
    rw [hfree]
    show e2 ∈ s.allocMap_.eraseIdx (s.allocMap_.find p)
    rw [List.mem_eraseIdx_iff_getElem?]
    obtain ⟨i, hi⟩ := List.getElem?_of_mem he2
    refine ⟨i, ?_, hi⟩
    intro hik
    rw [hik, h] at hi
    apply hne
    have := AllocMap.getElem?_find_key s.allocMap_ p e h
    rw [← Option.some.inj hi]
    exact this

/-- With more fuel than records the destructor's loop terminates: it leaves
the table empty and has issued `munmap` and `close` for every record, in key
order. -/
theorem removeAll_total (fuel : Nat) (s : State) (hf : s.allocMap_.length < fuel) :
    ∃ s2, removeAll fuel s 0 = some s2 ∧ s2.allocMap_ = [] ∧
      s2.dmaheapHandle_ = s.dmaheapHandle_ ∧
      s2.trace = s.trace ++ s.allocMap_.flatMap
        (fun e => [Syscall.munmap e.1 (toSizeT e.2.size), Syscall.close e.2.handle]) := by
  induction fuel generalizing s with
  | zero => omega
  | succ n ih =>
    rcases hm : s.allocMap_ with _ | ⟨e, rest⟩
    · refine ⟨s, ?_, hm, rfl, by simp⟩
      simp [removeAll, hm]
    · have hfind : s.allocMap_.find e.1 = 0 := by
        rw [hm]
        obtain ⟨q, w⟩ := e
        simp [AllocMap.find]
      have hentry : s.allocMap_[s.allocMap_.find e.1]? = some e := by
        rw [hfind, hm]; simp
      have hrem := remove_tracked s e.1 e hentry
      have hlen : 0 < s.allocMap_.length := by rw [hm]; simp
      have hstep : removeAll (n + 1) s 0 = removeAll n (remove s e.1).2 (remove s e.1).1 := by
        have hget : (s.allocMap_.get ⟨0, hlen⟩).1 = e.1 := by
          simp [List.get_eq_getElem, hm]
        simp only [removeAll, hlen, dite_true, hget]
      rw [hstep, hrem, hfind]
      have hmap2 : ({ sysClose (sysMunmap s e.1 (toSizeT e.2.size)) e.2.handle with
          allocMap_ := s.allocMap_.eraseIdx 0 } : State).allocMap_ = rest := by
        simp [hm]
      obtain ⟨s2, h1, h2, h3, h4⟩ := ih
        ({ sysClose (sysMunmap s e.1 (toSizeT e.2.size)) e.2.handle with
          allocMap_ := s.allocMap_.eraseIdx 0 } : State)
        (by rw [hmap2]; rw [hm] at hf; simp at hf; omega)
      refine ⟨s2, h1, h2, ?_, ?_⟩
      · rw [h3]
        unfold sysClose sysMunmap State.issue
        split <;> rfl
      · rw [h4, hmap2]
        have htr : ({ sysClose (sysMunmap s e.1 (toSizeT e.2.size)) e.2.handle with
            allocMap_ := s.allocMap_.eraseIdx 0 } : State).trace =
            s.trace ++ [.munmap e.1 (toSizeT e.2.size), .close e.2.handle] := by
          unfold sysClose sysMunmap State.issue
          split <;> simp
        rw [htr]
        simp

/-! ## The record of a successful `alloc` -/

/-- The size `alloc` reserves is a multiple of a power-of-two page size, also
when `size + pageSize - 1` wraps. -/
theorem alignedSize_dvd (s k : Nat) (hk : k < 32) : 2 ^ k ∣ alignedSize s (2 ^ k) := by
  have hP : 2 ^ k < 2 ^ 32 := Nat.pow_lt_pow_right (by decide) hk
  have hpos : 0 < 2 ^ k := Nat.two_pow_pos k
  have hm : not32 (sub32 (2 ^ k) 1) = 2 ^ 32 - 2 ^ k := by
    unfold not32 sub32
    rw [Nat.mod_eq_of_lt hP]
    omega
  have hmlt : 2 ^ 32 - 2 ^ k < 2 ^ 32 := by omega
  unfold alignedSize
  rw [hm]
  unfold and32
  rw [Nat.mod_eq_of_lt hmlt, land_high_mask _ k (Nat.mod_lt _ (by decide)) (by omega)]
  exact Dvd.intro _ rfl

/-- When the rounded size is below `2^31`, the record a successful `alloc`
inserts holds the descriptor and, as its size, the positive multiple of the
page size that was passed to `mmap`; `remove` will pass the same length to
`munmap`. -/
theorem alloc_record_small (s : State) (name : String) (size : Nat) (k : KernelReply)
    (p j : Nat) (hinv : TrackedMapped s) (hk : kernelOk s size k)
    (hj : j < 32) (hpage : s.pageSize = 2 ^ j)
    (hsmall : alignedSize size (2 ^ j) < 2 ^ 31)
    (h : (alloc s name size k).1 = some p) :
    ∃ fd, k.allocFd = some fd ∧
      (alloc s name size k).2.allocMap_[(alloc s name size k).2.allocMap_.find p]? =
        some (p, ⟨fd, alignedSize size (2 ^ j)⟩) ∧
      (⟨p, alignedSize size (2 ^ j), fd⟩ : Mapping) ∈ (alloc s name size k).2.maps ∧
      0 < alignedSize size (2 ^ j) ∧ 2 ^ j ∣ alignedSize size (2 ^ j) ∧
      toSizeT (alignedSize size (2 ^ j) : Int) = alignedSize size (2 ^ j) := by
  have hP : 2 ^ j < 2 ^ 32 := Nat.pow_lt_pow_right (by decide) hj
  have hpg : s.pageSize % 2 ^ 32 = 2 ^ j := by rw [hpage, Nat.mod_eq_of_lt hP]
  obtain ⟨afd, maddr⟩ := k
  cases afd with
  | none => simp [alloc] at h
  | some fd =>
    cases maddr with
    | none => simp [alloc] at h
    | some a =>
      have hfd : fd < 2 ^ 31 := hk.1.1
      have hpa : a = p := by simpa [alloc] using h
      subst hpa
      obtain ⟨hpos, _, hfresh⟩ := hk.2
      rw [hpg] at hpos hfresh
      have hnt : a ∉ s.allocMap_.keys := fresh_not_tracked s a _ hinv hpos hfresh
      have hentry := AllocMap.getElem?_find_emplace s.allocMap_ a
        ⟨toInt fd, toInt (alignedSize size (2 ^ j))⟩ hnt
      rw [toInt_of_lt fd hfd, toInt_of_lt _ hsmall] at hentry
      refine ⟨fd, rfl, ?_, ?_, hpos, alignedSize_dvd size j hj, ?_⟩
      · simpa only [alloc, hpg, State.issue, toInt_of_lt fd hfd, toInt_of_lt _ hsmall]
          using hentry
      · simp only [alloc, hpg, State.issue, toInt_of_lt fd hfd]
        exact List.mem_cons_self _ _
      · unfold toSizeT
        have h2 : ((alignedSize size (2 ^ j) : Nat) : Int) % 2 ^ 64 =
            ((alignedSize size (2 ^ j) % 2 ^ 64 : Nat) : Int) := by norm_cast
        rw [h2, Nat.mod_eq_of_lt (by omega)]
        simp

end RPi
